import Mathlib

/-!
Shallow embedding of `src/database/abstraction/heed.rs` from the
`itsknk/matrix-server` repository: a key-value storage abstraction layer
over the heed (LMDB) embedded ordered byte-store.

Modelling choices:
* Keys and values are byte sequences, embedded as `List Nat` (each entry a
  byte value; the ordering used by the store is lexicographic over bytes).
* The state of one namespace (an `UntypedDatabase` under a transaction) is a
  strictly ascending association list `Db`; the heed collaborator's
  operations `get`, `put`, `delete`, `iter`, `range`, `rev_range` are
  embedded as `dbGet`, `dbPut`, `dbDelete`, `heedIterAll`, `heedRangeFrom`,
  `heedRevRangeTo` over that list.
* Fallible steps (`read_txn`, `write_txn`, `get`, `put`, `delete`,
  `commit`) are fault-injected through a `Faults` record: a `true` field
  makes the corresponding store call return an error, exactly where the Rust
  code applies `map_err(convert_error)?`.
* The bounded crossbeam channel used by background scans is embedded as a
  send oracle `sendOk : Nat → Bool` telling whether the n-th `send` call
  succeeds; `sendLoop` is the producer loop of `iter_from_thread_work`.
-/

namespace Heed

/-- A key: a sequence of bytes (`Vec<u8>` in the source). -/
abbrev Key := List Nat

/-- A value: a sequence of bytes (`Vec<u8>` in the source). -/
abbrev Value := List Nat

/-- Embeds `type TupleOfBytes = (Vec<u8>, Vec<u8>)` from the source. -/
abbrev TupleOfBytes := Key × Value

/-- Three-way lexicographic comparison of byte sequences; this is the key
order of the underlying ordered byte store (LMDB's default byte-wise
lexicographic comparator). -/
def keyCmp : List Nat → List Nat → Ordering
  | [], [] => .eq
  | [], _ :: _ => .lt
  | _ :: _, [] => .gt
  | a :: as, b :: bs =>
    if a < b then .lt else if b < a then .gt else keyCmp as bs

/-- Strict lexicographic order on keys. -/
def keyLt (a b : List Nat) : Bool := keyCmp a b == .lt

/-- Lexicographic order on keys (reflexive). -/
def keyLe (a b : List Nat) : Bool := !(keyCmp a b == .gt)

/-- The contents of one namespace: an association list of (key, value)
pairs, kept strictly ascending in `keyLt` (see `SortedDb`). This is the
abstract state of a heed `UntypedDatabase`. -/
abbrev Db := List TupleOfBytes

/-- The store keeps keys strictly ascending and hence unique. -/
def SortedDb (db : Db) : Prop :=
  List.Pairwise (fun p q => keyLt p.1 q.1 = true) db

/-- Heed collaborator `tree.get(&txn, &key)`: point lookup. -/
def dbGet : Db → Key → Option Value
  | [], _ => none
  | (k', v') :: rest, k => if k = k' then some v' else dbGet rest k

/-- Heed collaborator `tree.put(&mut txn, &key, &value)`: upsert, keeping
the association list ascending. -/
def dbPut : Db → Key → Value → Db
  | [], k, v => [(k, v)]
  | (k', v') :: rest, k, v =>
    if keyLt k k' then (k, v) :: (k', v') :: rest
    else if k = k' then (k, v) :: rest
    else (k', v') :: dbPut rest k v

/-- Heed collaborator `tree.delete(&mut txn, &key)`: removes the key's
entry if present, a no-op otherwise. -/
def dbDelete : Db → Key → Db
  | [], _ => []
  | (k', v') :: rest, k =>
    if k = k' then rest else (k', v') :: dbDelete rest k

/-- Embeds `Error::HeedError` with its message, produced by `convert_error`. -/
structure Error where
  error : String
deriving Repr, DecidableEq

/-- Fault injection for the heed collaborator: each field makes the
corresponding store call fail (return `Err`) at the point where the Rust
code checks it with `map_err(convert_error)?`. -/
structure Faults where
  readTxnFails : Bool
  writeTxnFails : Bool
  getFails : Bool
  putFails : Bool
  deleteFails : Bool
  commitFails : Bool
deriving Repr, DecidableEq

/-- The all-success execution: every store call succeeds. -/
def noFaults : Faults := ⟨false, false, false, false, false, false⟩

/-- Embeds `EngineTree::get` (heed.rs lines 127-134): opens a read transaction,
looks the key up, maps the bytes to an owned vector. -/
def EngineTree.get (f : Faults) (db : Db) (key : Key) :
    Except Error (Option Value) :=
  if f.readTxnFails then .error ⟨"read_txn"⟩
  else if f.getFails then .error ⟨"get"⟩
  else .ok (dbGet db key)

/-- Embeds `EngineTree::insert` (heed.rs lines 136-144): opens a write
transaction, puts (key, value), commits, then calls
`self.watchers.wake(key)`. The second component is the list of keys passed
to the watcher wake during the call; the database state is returned only
on success (an aborted transaction leaves the store unchanged). -/
def EngineTree.insert (f : Faults) (db : Db) (key : Key) (value : Value) :
    Except Error Db × List Key :=
  if f.writeTxnFails then (.error ⟨"write_txn"⟩, [])
  else if f.putFails then (.error ⟨"put"⟩, [])
  else if f.commitFails then (.error ⟨"commit"⟩, [])
  else (.ok (dbPut db key value), [key])

/-- Embeds `EngineTree::remove` (heed.rs lines 146-151): opens a write
transaction, deletes the key, commits. The body never mentions the
watchers, so the wake-call list (second component) is empty on every
path. -/
def EngineTree.remove (f : Faults) (db : Db) (key : Key) :
    Except Error Db × List Key :=
  if f.writeTxnFails then (.error ⟨"write_txn"⟩, [])
  else if f.deleteFails then (.error ⟨"delete"⟩, [])
  else if f.commitFails then (.error ⟨"commit"⟩, [])
  else (.ok (dbDelete db key), [])

/-- A registered watcher: the identifier of its single-shot signal and the
prefix it subscribed with. -/
abbrev Watcher := Nat × Key

/-- Modelled from the spec: the `Watchers` type (module
`watchers`, used by `EngineTree` through `self.watchers`) is not under
`src/`. Per §4.4 of the spec, `wake(key)` "synchronously scans currently
registered prefixes and completes every waiter whose prefix matches `key`,
removing them from the registry", where a Watcher fires "only for a write
whose key has the Watcher's prefix as a byte-prefix" (§3). Returns the
completed watcher ids and the remaining registry. -/
def Watchers.wake (registry : List Watcher) (key : Key) :
    List Nat × List Watcher :=
  ((registry.filter fun w => w.2.isPrefixOf key).map Prod.fst,
   registry.filter fun w => !w.2.isPrefixOf key)

/-- Modelled from the spec: `Watchers::watch` (§4.4 `watch_prefix`)
"registers a single-shot, externally-cancellable awaitable against the
namespace": a new pending waiter is added to the registry's table. -/
def Watchers.watch (registry : List Watcher) (id : Nat) (pfx : Key) :
    List Watcher :=
  registry ++ [(id, pfx)]

/-- The state reachable through several `Tree` handles opened from one
`Engine` for the same namespace: the shared namespace contents and one
watcher registry per handle. Each call to `Engine::open_tree` (heed.rs
lines 52-63) builds a new `EngineTree` value whose `watchers` field is
`Default::default()` — a fresh, empty registry private to that handle. -/
structure World where
  db : Db
  handles : List (List Watcher)
deriving Repr, DecidableEq

/-- Embeds `Engine::open_tree` (heed.rs lines 52-63) called on an existing
namespace: the returned handle shares the namespace contents but carries a
fresh empty `Watchers` (`watchers: Default::default()`, line 61). Returns
the new world and the index of the new handle. -/
def Engine.open_tree (w : World) : World × Nat :=
  ({ w with handles := w.handles ++ [[]] }, w.handles.length)

/-- Embeds `EngineTree::watch_prefix` (heed.rs lines 191-193) through handle `h`:
`self.watchers.watch(prefix)` registers in that handle's own registry. -/
def EngineTree.watch_prefix (w : World) (h : Nat) (id : Nat) (pfx : Key) :
    World :=
  { w with
    handles := w.handles.set h (Watchers.watch (w.handles.getD h []) id pfx) }

/-- Embeds `EngineTree::insert` (heed.rs lines 136-144) through handle `h`, on
the success path: updates the shared namespace, then `self.watchers.wake
(key)` — the wake scans the registry of handle `h` only. Returns the new
world and the ids of the watchers completed by the wake. -/
def World.insert (w : World) (h : Nat) (key : Key) (value : Value) :
    World × List Nat :=
  let fired := (Watchers.wake (w.handles.getD h []) key).1
  let reg' := (Watchers.wake (w.handles.getD h []) key).2
  ({ db := dbPut w.db key value, handles := w.handles.set h reg' }, fired)

/-- Embeds `EngineTree::remove` (heed.rs lines 146-151) through handle `h`, on
the success path: updates the shared namespace; no wake call occurs, no
registry is touched. -/
def World.remove (w : World) (_h : Nat) (key : Key) : World × List Nat :=
  ({ w with db := dbDelete w.db key }, [])

/-- The producer loop body shared by all branches of
`iter_from_thread_work` (heed.rs lines 103-123): for each cursor item in
order, call `s.send(...)`; if the send `is_err()`, return at once.
`sendOk n` says whether the n-th send call on the bounded channel succeeds
(it is `false` once the receiving side was dropped). Returns the pairs
actually delivered into the channel and the number of send calls made. -/
def sendLoop (sendOk : Nat → Bool) :
    Nat → List TupleOfBytes → List TupleOfBytes × Nat
  | _, [] => ([], 0)
  | idx, x :: rest =>
    if sendOk idx then
      let r := sendLoop sendOk (idx + 1) rest
      (x :: r.1, r.2 + 1)
    else ([], 1)

/-- Heed collaborator `tree.iter(txn)`: full ascending scan of the
namespace (heed.rs line 111). -/
def heedIterAll (db : Db) : List TupleOfBytes := db

/-- Heed collaborator `tree.range(txn, &*from..)`: ascending cursor over
the keys `≥ from` (heed.rs line 117). -/
def heedRangeFrom (db : Db) (from_ : Key) : List TupleOfBytes :=
  db.filter fun p => keyLe from_ p.1

/-- Heed collaborator `tree.rev_range(txn, ..=&*from)`: descending cursor
over the keys `≤ from` (heed.rs line 104). -/
def heedRevRangeTo (db : Db) (from_ : Key) : List TupleOfBytes :=
  (db.filter fun p => keyLe p.1 from_).reverse

/-- The cursor items enumerated by `iter_from_thread_work` (heed.rs lines
96-124): its three-way branch on `backwards` and `from.is_empty()`. -/
def rangeItems (db : Db) (from_ : Key) (backwards : Bool) :
    List TupleOfBytes :=
  if backwards then heedRevRangeTo db from_
  else if from_.isEmpty then heedIterAll db
  else heedRangeFrom db from_

/-- Embeds `iter_from_thread_work` (heed.rs lines 96-124): enumerates the chosen
range and sends each pair on the bounded channel, returning as soon as a
send fails. -/
def iter_from_thread_work (db : Db) (from_ : Key) (backwards : Bool)
    (sendOk : Nat → Bool) : List TupleOfBytes × Nat :=
  sendLoop sendOk 0 (rangeItems db from_ backwards)

/-- Embeds `EngineTree::iter_from` (heed.rs lines 157-163) as observed by a
consumer that drains the whole lazy sequence: every send succeeds and the
receiver yields exactly the sent pairs in order. -/
def EngineTree.iter_from (db : Db) (from_ : Key) (backwards : Bool) :
    List TupleOfBytes :=
  (iter_from_thread_work db from_ backwards fun _ => true).1

/-- Embeds `EngineTree::iter` (heed.rs lines 153-155): `self.iter_from(&[], false)`. -/
def EngineTree.iter (db : Db) : List TupleOfBytes :=
  EngineTree.iter_from db [] false

/-- Embeds `EngineTree::scan_prefix` (heed.rs lines 181-189):
`self.iter_from(&prefix, false).take_while(move |(key, _)|
key.starts_with(&prefix))`. -/
def EngineTree.scan_prefix (db : Db) (pfx : Key) : List TupleOfBytes :=
  ( EngineTree.iter_from db pfx false).takeWhile fun p => pfx.isPrefixOf p.1

/-- The background scan with its internal failure modes
(`EngineTree::iter_from_thread`, heed.rs lines 71-93, spawning
`iter_from_thread_work`): `engine.env.read_txn().unwrap()` panics the
producer thread before anything is sent when opening the read transaction
fails (`txnFails`), and `.map(|r| r.unwrap())` panics at the first failing
cursor read (`readFailsAt = some i`: reading entry `i` fails after the
entries before it were sent). Either way the sender is dropped and the
consumer's channel iterator simply ends: the value is the pairs the
consumer receives. -/
def scanWithFaults (db : Db) (from_ : Key) (backwards : Bool)
    (txnFails : Bool) (readFailsAt : Option Nat) (sendOk : Nat → Bool) :
    List TupleOfBytes :=
  if txnFails then []
  else
    let avail :=
      match readFailsAt with
      | none => rangeItems db from_ backwards
      | some i => (rangeItems db from_ backwards).take i
    (sendLoop sendOk 0 avail).1

/-- Big-endian fixed-width encoding of a natural number into `width`
bytes, most significant first (`u64::to_be_bytes` for `width = 8`); only
`n % 256 ^ width` is representable. -/
def natToBytesBE : Nat → Nat → List Nat
  | 0, _ => []
  | w + 1, n => natToBytesBE w (n / 256) ++ [n % 256]

/-- Big-endian byte decoding (`u64::from_be_bytes`); the empty sequence
decodes to zero. -/
def bytesToNatBE (bs : List Nat) : Nat :=
  bs.foldl (fun acc b => acc * 256 + b) 0

/-- Modelled from the spec: `crate::utils::increment` is not under `src/`.
Per §4.2 the operation "reads the current value (absence treated as
zero), computes the successor as a fixed-width big-endian integer
increment", and per §3 it produces "fixed-width big-endian values starting
from 1 when the key was previously absent"; the counter word is 8 bytes
wide. -/
def utilsIncrement (old : Option Value) : Value :=
  natToBytesBE 8 (bytesToNatBE (old.getD []) + 1)

/-- Embeds `EngineTree::increment` (heed.rs lines 165-179): a single write
transaction that reads the current value, computes
`crate::utils::increment` of it, puts the result back, commits, and
returns the new value. -/
def EngineTree.increment (f : Faults) (db : Db) (key : Key) :
    Except Error (Db × Value) :=
  if f.writeTxnFails then .error ⟨"write_txn"⟩
  else if f.getFails then .error ⟨"get"⟩
  else
    let new := utilsIncrement (dbGet db key)
    if f.putFails then .error ⟨"put"⟩
    else if f.commitFails then .error ⟨"commit"⟩
    else .ok (dbPut db key new, new)

/-- Runs `n` sequential successful `increment` calls on the same key: the final
database state and the returned values in call order. -/
def incrementN (key : Key) : Db → Nat → Db × List Value
  | _db, 0 => (_db, [])
  | db, n + 1 =>
    match EngineTree.increment noFaults db key with
    | .ok (db', v) =>
      let r := incrementN key db' n
      (r.1, v :: r.2)
    | .error _ => (db, [])

end Heed

namespace Heed

theorem keyCmp_self : ∀ k : List Nat, keyCmp k k = .eq
  | [] => rfl
  | a :: as => by simp [keyCmp, keyCmp_self as]

theorem keyCmp_eq_iff : ∀ {a b : List Nat}, keyCmp a b = .eq ↔ a = b
  | [], [] => by simp [keyCmp]
  | [], _ :: _ => by simp [keyCmp]
  | _ :: _, [] => by simp [keyCmp]
  | a :: as, b :: bs => by
    by_cases hab : a < b
    · simp only [keyCmp, hab, if_true]
      constructor
      · intro h; exact absurd h (by simp)
      · intro h; exact absurd (List.cons.injEq .. ▸ h).1 (Nat.ne_of_lt hab)
    · by_cases hba : b < a
      · simp only [keyCmp, hab, if_false, hba, if_true]
        constructor
        · intro h; exact absurd h (by simp)
        · intro h; exact absurd (List.cons.injEq .. ▸ h).1 (Nat.ne_of_lt hba).symm
      · have : a = b := Nat.le_antisymm (Nat.not_lt.mp hba) (Nat.not_lt.mp hab)
        subst this
        simp [keyCmp, hab, hba, keyCmp_eq_iff (a := as) (b := bs)]

theorem dbGet_dbPut_self (db : Db) (k : Key) (v : Value) :
    dbGet (dbPut db k v) k = some v := by
  induction db with
  | nil => simp [dbPut, dbGet]
  | cons hd rest ih =>
    obtain ⟨k', v'⟩ := hd
    simp only [dbPut]
    by_cases hlt : keyLt k k' = true
    · simp [hlt, dbGet]
    · by_cases heq : k = k'
      · subst heq
        simp [hlt, dbGet]
      · simp [hlt, heq, dbGet, ih]

/-- C1. For every key `k` and value `v`, a successful `insert(k, v)`
followed by (a successful) `get(k)` on the same tree returns `Some(v)`. -/
theorem insert_then_get (f : Faults) (db db' : Db) (k : Key) (v : Value)
    (h : (EngineTree.insert f db k v).1 = .ok db') :
    EngineTree.get noFaults db' k = .ok (some v) := by
  unfold EngineTree.insert at h
  by_cases h1 : f.writeTxnFails
  · simp [h1] at h
  · by_cases h2 : f.putFails
    · simp [h1, h2] at h
    · by_cases h3 : f.commitFails
      · simp [h1, h2, h3] at h
      · simp only [h1, h2, h3, Bool.false_eq_true, if_false] at h
        cases h
        simp [EngineTree.get, noFaults, dbGet_dbPut_self]

/-- Witness for `insert_then_get` at a concrete input. -/
theorem insert_then_get_witness :
    EngineTree.get noFaults (dbPut ([] : Db) [1] [7]) [1] = .ok (some [7]) :=
  insert_then_get noFaults [] (dbPut ([] : Db) [1] [7]) [1] [7] rfl

theorem keyLt_self (k : List Nat) : keyLt k k = false := by
  simp [keyLt, keyCmp_self]
  rfl

theorem dbGet_none_of_forall_lt (k : Key) :
    ∀ db : Db, (∀ p ∈ db, keyLt k p.1 = true) → dbGet db k = none := by
  intro db
  induction db with
  | nil => intro _; rfl
  | cons hd rest ih =>
    intro hall
    obtain ⟨k', v'⟩ := hd
    by_cases heq : k = k'
    · subst heq
      have := hall (k, v') (by simp)
      simp [keyLt_self] at this
    · simp only [dbGet, heq, if_false]
      exact ih fun p hp => hall p (by simp [hp])

theorem dbGet_dbDelete_self (k : Key) :
    ∀ db : Db, SortedDb db → dbGet (dbDelete db k) k = none := by
  intro db
  induction db with
  | nil => intro _; rfl
  | cons hd rest ih =>
    intro hs
    obtain ⟨k', v'⟩ := hd
    rw [SortedDb, List.pairwise_cons] at hs
    by_cases heq : k = k'
    · subst heq
      simp only [dbDelete, if_pos rfl]
      exact dbGet_none_of_forall_lt k rest fun p hp => hs.1 p hp
    · simp only [dbDelete, heq, if_false, dbGet]
      exact ih hs.2

theorem dbGet_dbDelete_ne (k k' : Key) (hne : k' ≠ k) :
    ∀ db : Db, dbGet (dbDelete db k) k' = dbGet db k' := by
  intro db
  induction db with
  | nil => rfl
  | cons hd rest ih =>
    obtain ⟨k0, v0⟩ := hd
    by_cases heq : k = k0
    · subst heq
      have hk' : ¬(k' = k) := hne
      simp [dbDelete, dbGet, hk']
    · simp only [dbDelete, heq, if_false, dbGet]
      by_cases h0 : k' = k0
      · simp [h0]
      · simp [h0, ih]

theorem dbDelete_absent (k : Key) :
    ∀ db : Db, dbGet db k = none → dbDelete db k = db := by
  intro db
  induction db with
  | nil => intro _; rfl
  | cons hd rest ih =>
    intro habs
    obtain ⟨k', v'⟩ := hd
    simp only [dbGet] at habs
    by_cases heq : k = k'
    · simp [heq] at habs
    · simp only [dbDelete, heq, if_false]
      simp only [heq, if_false] at habs
      rw [ih habs]

/-- C5. `insert(key, value)` invokes the watcher wake with that key
exactly when the write transaction commits successfully (i.e. when
beginning the transaction, the put and the commit all succeed); on any
failure it returns an error and no wake occurs. -/
theorem insert_wakes_exactly_on_commit (f : Faults) (db : Db) (k : Key)
    (v : Value) :
    ((EngineTree.insert f db k v).2 = [k] ↔
      (EngineTree.insert f db k v).1 = .ok (dbPut db k v))
    ∧ ((EngineTree.insert f db k v).1 = .ok (dbPut db k v) ↔
      (f.writeTxnFails = false ∧ f.putFails = false ∧ f.commitFails = false))
    ∧ ((f.writeTxnFails = true ∨ f.putFails = true ∨ f.commitFails = true) →
      (∃ e, (EngineTree.insert f db k v).1 = .error e)
        ∧ (EngineTree.insert f db k v).2 = []) := by
  unfold EngineTree.insert
  cases hw : f.writeTxnFails <;> cases hp : f.putFails <;>
    cases hc : f.commitFails <;> simp

/-- Witness for `insert_wakes_exactly_on_commit`: on the all-success run
the wake is invoked with the inserted key. -/
theorem insert_wakes_exactly_on_commit_witness :
    (EngineTree.insert noFaults [] [2] [5]).2 = [[2]] :=
  ((insert_wakes_exactly_on_commit noFaults [] [2] [5]).1).mpr rfl

/-- C9. `remove(key)` deletes the key if present (a no-op if absent),
commits, and never invokes the watcher wake — on any path, including
failing ones; the watcher registries of all handles and the bindings of
all other keys are unchanged. -/
theorem remove_deletes_never_wakes (f : Faults) (w : World) (h : Nat)
    (k : Key) (hs : SortedDb w.db) :
    (EngineTree.remove f w.db k).2 = []
    ∧ (EngineTree.remove noFaults w.db k).1 = .ok (dbDelete w.db k)
    ∧ (World.remove w h k).2 = []
    ∧ (World.remove w h k).1.handles = w.handles
    ∧ dbGet (World.remove w h k).1.db k = none
    ∧ (∀ k', k' ≠ k → dbGet (World.remove w h k).1.db k' = dbGet w.db k')
    ∧ (dbGet w.db k = none → (World.remove w h k).1.db = w.db) := by
  refine ⟨?_, rfl, rfl, rfl, ?_, ?_, ?_⟩
  · unfold EngineTree.remove
    cases f.writeTxnFails <;> cases f.deleteFails <;> cases f.commitFails <;> simp
  · exact dbGet_dbDelete_self k w.db hs
  · intro k' hk'
    exact dbGet_dbDelete_ne k k' hk' w.db
  · intro habs
    show dbDelete w.db k = w.db
    exact dbDelete_absent k w.db habs

/-- Witness for `remove_deletes_never_wakes` at a concrete world. -/
theorem remove_deletes_never_wakes_witness :
    dbGet (World.remove ⟨[([1], [9])], [[]]⟩ 0 [1]).1.db [1] = none :=
  (remove_deletes_never_wakes noFaults ⟨[([1], [9])], [[]]⟩ 0 [1]
    (by simp [SortedDb])).2.2.2.2.1

/-- C6 counterexample. Two handles are opened for the same namespace
(indices 0 and 1); a watcher with prefix `[97]` is registered through
handle 0; a matching insert (key `[97, 98]`, of which `[97]` is a
byte-prefix) is performed through handle 1. The claim says the watcher is
woken; in the code `open_tree` gives every handle a fresh
`Default::default()` registry and `insert` wakes only `self.watchers`, so
no watcher fires and handle 0's watcher stays pending. -/
theorem watch_registry_not_shared :
    (World.insert
        ( EngineTree.watch_prefix
          (Engine.open_tree (Engine.open_tree ⟨[], []⟩).1).1 0 0 [97])
        1 [97, 98] [1]).2 = []
    ∧ (World.insert
        ( EngineTree.watch_prefix
          (Engine.open_tree (Engine.open_tree ⟨[], []⟩).1).1 0 0 [97])
        1 [97, 98] [1]).1.handles.getD 0 [] = [(0, [97])]
    ∧ ([97] : Key).isPrefixOf [97, 98] = true := by
  refine ⟨rfl, rfl, rfl⟩

/-- C6 (amended). The watch registry is per-handle, not per-namespace:
every `open_tree` call returns a handle with its own fresh registry, an
insert through handle `j` wakes exactly the matching watchers registered
through handle `j`, and the registry of any other handle `g ≠ j` of the
same namespace is left unchanged (its watchers are not woken). -/
theorem insert_wakes_only_own_handle (w : World) (g j : Nat) (k : Key)
    (v : Value) (hne : g ≠ j) :
    (World.insert w j k v).2 =
      ((w.handles.getD j []).filter fun p => p.2.isPrefixOf k).map Prod.fst
    ∧ (World.insert w j k v).1.handles.getD g [] = w.handles.getD g []
    ∧ (Engine.open_tree w).1.handles.getD (Engine.open_tree w).2 [] = [] := by
  refine ⟨rfl, ?_, ?_⟩
  · simp only [World.insert, List.getD_eq_getElem?_getD]
    rw [List.getElem?_set_ne (Ne.symm hne)]
  · simp [Engine.open_tree, List.getD_eq_getElem?_getD]

/-- Witness for `insert_wakes_only_own_handle` at a concrete world with
two handles. -/
theorem insert_wakes_only_own_handle_witness :
    (World.insert ⟨[], [[(0, [97])], []]⟩ 1 [97, 98] [1]).1.handles.getD 0 []
      = [(0, [97])] :=
  (insert_wakes_only_own_handle ⟨[], [[(0, [97])], []]⟩ 0 1 [97, 98] [1]
    (by decide)).2.1

theorem keyLe_nil_left : ∀ k : List Nat, keyLe [] k = true
  | [] => rfl
  | _ :: _ => rfl

theorem keyLe_nil_right_iff : ∀ k : List Nat, keyLe k [] = true ↔ k = []
  | [] => by
    simp [keyLe, keyCmp]
    rfl
  | _ :: _ => by
    simp [keyLe, keyCmp]
    rfl

theorem keyLe_of_keyLt {a b : List Nat} (h : keyLt a b = true) :
    keyLe a b = true := by
  unfold keyLt at h
  unfold keyLe
  cases hc : keyCmp a b with
  | lt => rfl
  | eq => rw [hc] at h; exact absurd h (by decide)
  | gt => rw [hc] at h; exact absurd h (by decide)

theorem sendLoop_all_ok : ∀ (idx : Nat) (l : List TupleOfBytes),
    sendLoop (fun _ => true) idx l = (l, l.length)
  | _, [] => rfl
  | idx, x :: rest => by
    simp [sendLoop, sendLoop_all_ok (idx + 1) rest]

theorem iter_from_eq_rangeItems (db : Db) (from_ : Key) (backwards : Bool) :
    EngineTree.iter_from db from_ backwards = rangeItems db from_ backwards := by
  simp [EngineTree.iter_from, iter_from_thread_work, sendLoop_all_ok]

/-- C3. `iter_from(from, backwards)` yields: with `backwards = false` and
`from` empty, all pairs of the namespace in ascending key order; with
`backwards = false`, exactly the pairs with key `≥ from`, in strictly
ascending key order (hence starting at the first such key); with
`backwards = true`, exactly the pairs with key `≤ from`, in strictly
descending key order (hence starting at the last such key). -/
theorem iter_from_spec (db : Db) (from_ : Key) (hs : SortedDb db) :
    EngineTree.iter_from db [] false = db
    ∧ (∀ p, p ∈ EngineTree.iter_from db from_ false ↔
        p ∈ db ∧ keyLe from_ p.1 = true)
    ∧ List.Pairwise (fun p q => keyLt p.1 q.1 = true)
        ( EngineTree.iter_from db from_ false)
    ∧ (∀ p, p ∈ EngineTree.iter_from db from_ true ↔
        p ∈ db ∧ keyLe p.1 from_ = true)
    ∧ List.Pairwise (fun p q => keyLt q.1 p.1 = true)
        ( EngineTree.iter_from db from_ true) := by
  rw [SortedDb] at hs
  refine ⟨?_, ?_, ?_, ?_, ?_⟩
  · simp [iter_from_eq_rangeItems, rangeItems, heedIterAll]
  · intro p
    rw [iter_from_eq_rangeItems]
    cases from_ with
    | nil =>
      simp [rangeItems, heedIterAll, keyLe_nil_left]
    | cons a as =>
      simp [rangeItems, heedRangeFrom, List.mem_filter]
  · rw [iter_from_eq_rangeItems]
    cases from_ with
    | nil => simpa [rangeItems, heedIterAll] using hs
    | cons a as =>
      simp only [rangeItems, heedRangeFrom]
      exact hs.filter _
  · intro p
    rw [iter_from_eq_rangeItems]
    simp [rangeItems, heedRevRangeTo, List.mem_reverse, List.mem_filter]
  · rw [iter_from_eq_rangeItems]
    simp only [rangeItems, heedRevRangeTo, if_true]
    rw [List.pairwise_reverse]
    exact hs.filter _

/-- Witness for `iter_from_spec` at a concrete two-entry namespace. -/
theorem iter_from_spec_witness :
    EngineTree.iter_from [(([1] : Key), ([0] : Value)), ([2], [1])] [] false
      = [(([1] : Key), ([0] : Value)), ([2], [1])] :=
  (iter_from_spec [(([1] : Key), ([0] : Value)), ([2], [1])] [2]
    (by unfold SortedDb; decide)).1

theorem dbGet_none_forall (k : Key) :
    ∀ db : Db, dbGet db k = none → ∀ p ∈ db, p.1 ≠ k := by
  intro db
  induction db with
  | nil => intro _ p hp; cases hp
  | cons hd rest ih =>
    obtain ⟨k', v'⟩ := hd
    intro hnone p hp
    simp only [dbGet] at hnone
    by_cases heq : k = k'
    · simp [heq] at hnone
    · rcases List.mem_cons.mp hp with hp | hp
      · subst hp
        exact fun hc => heq hc.symm
      · exact ih (by simpa [heq] using hnone) p hp

theorem filter_keyLe_nil_of_some (v : Value) :
    ∀ db : Db, SortedDb db → dbGet db [] = some v →
      (db.filter fun p => keyLe p.1 []) = [(([] : Key), v)] := by
  intro db
  induction db with
  | nil => intro _ h; cases h
  | cons hd rest ih =>
    obtain ⟨k', v'⟩ := hd
    intro hs hv
    rw [SortedDb, List.pairwise_cons] at hs
    by_cases heq : ([] : Key) = k'
    · subst heq
      have hv' : v' = v := by simpa [dbGet] using hv
      subst hv'
      have hrest : (rest.filter fun p => keyLe p.1 []) = [] := by
        rw [List.filter_eq_nil_iff]
        intro p hp hle
        have hlt := hs.1 p hp
        rw [(keyLe_nil_right_iff p.1).mp hle] at hlt
        simp [keyLt_self] at hlt
      rw [List.filter_cons]
      simp [keyLe_nil_left, hrest]
    · have hv' : dbGet rest [] = some v := by
        simpa [dbGet, heq] using hv
      have hk' : keyLe k' [] = false := by
        cases hcase : keyLe k' []
        · rfl
        · exact absurd ((keyLe_nil_right_iff k').mp hcase)
            (fun hc => heq hc.symm)
      rw [List.filter_cons]
      simp only [hk', Bool.false_eq_true, if_false]
      exact ih (hs.2) hv'

/-- C10. `iter_from` with an empty `from` and `backwards = true` ranges
over the keys `≤` the empty byte string only: it yields the entry for the
empty key when the namespace has one, and the empty sequence otherwise —
not a full descending scan. -/
theorem iter_from_empty_backwards (db : Db) (hs : SortedDb db) :
    (dbGet db [] = none → EngineTree.iter_from db [] true = [])
    ∧ (∀ v, dbGet db [] = some v →
        EngineTree.iter_from db [] true = [(([] : Key), v)]) := by
  constructor
  · intro hnone
    rw [iter_from_eq_rangeItems]
    simp only [rangeItems, heedRevRangeTo, if_true]
    have : (db.filter fun p => keyLe p.1 []) = [] := by
      rw [List.filter_eq_nil_iff]
      intro p hp hle
      exact dbGet_none_forall [] db hnone p hp ((keyLe_nil_right_iff p.1).mp hle)
    rw [this]
    rfl
  · intro v hv
    rw [iter_from_eq_rangeItems]
    simp only [rangeItems, heedRevRangeTo, if_true]
    rw [filter_keyLe_nil_of_some v db hs hv]
    rfl

/-- Witness for `iter_from_empty_backwards`: a namespace with no empty key
yields the empty sequence. -/
theorem iter_from_empty_backwards_witness :
    EngineTree.iter_from [(([1] : Key), ([0] : Value)), ([2], [1])] [] true
      = [] :=
  (iter_from_empty_backwards [(([1] : Key), ([0] : Value)), ([2], [1])]
    (by unfold SortedDb; decide)).1 (by decide)

theorem keyCmp_cons (a : Nat) (as bs : List Nat) :
    keyCmp (a :: as) (a :: bs) = keyCmp as bs := by
  simp only [keyCmp]
  rw [if_neg (Nat.lt_irrefl a), if_neg (Nat.lt_irrefl a)]

theorem keyLe_of_isPrefixOf :
    ∀ (p k : List Nat), p.isPrefixOf k = true → keyLe p k = true
  | [], k, _ => keyLe_nil_left k
  | _ :: _, [], h => by simp at h
  | a :: as, b :: bs, h => by
    simp only [List.isPrefixOf, Bool.and_eq_true, beq_iff_eq] at h
    obtain ⟨rfl, h2⟩ := h
    have ihle := keyLe_of_isPrefixOf as bs h2
    unfold keyLe at ihle ⊢
    rw [keyCmp_cons]
    exact ihle

/-- Prefix-block contiguity in the lexicographic order: a key between a
prefix `p` and a key extending `p` itself extends `p`. -/
theorem isPrefixOf_of_between :
    ∀ (p k1 k2 : List Nat), keyLe p k1 = true → keyLe k1 k2 = true →
      p.isPrefixOf k2 = true → p.isPrefixOf k1 = true
  | [], k1, _, _, _, _ => List.isPrefixOf_nil_left
  | a :: as, [], _, h1, _, _ =>
    absurd ((keyLe_nil_right_iff (a :: as)).mp h1) (List.cons_ne_nil a as)
  | _ :: _, _ :: _, [], _, _, h3 => by simp at h3
  | a :: as, b :: bs, c :: cs, h1, h2, h3 => by
    simp only [List.isPrefixOf, Bool.and_eq_true, beq_iff_eq] at h3 ⊢
    obtain ⟨rfl, h3'⟩ := h3
    rcases Nat.lt_trichotomy a b with hab | hab | hab
    · exfalso
      unfold keyLe at h2
      have hgt : keyCmp (b :: bs) (a :: cs) = .gt := by
        simp only [keyCmp]
        rw [if_neg (by omega), if_pos hab]
      rw [hgt] at h2
      exact absurd h2 (by decide)
    · subst hab
      refine ⟨rfl, ?_⟩
      have h1' : keyLe as bs = true := by
        unfold keyLe at h1 ⊢
        rw [keyCmp_cons] at h1
        exact h1
      have h2' : keyLe bs cs = true := by
        unfold keyLe at h2 ⊢
        rw [keyCmp_cons] at h2
        exact h2
      exact isPrefixOf_of_between as bs cs h1' h2' h3'
    · exfalso
      unfold keyLe at h1
      have hgt : keyCmp (a :: as) (b :: bs) = .gt := by
        simp only [keyCmp]
        rw [if_neg (by omega), if_pos hab]
      rw [hgt] at h1
      exact absurd h1 (by decide)

/-- Lemma: `takeWhile` agrees with `filter` on a list whose order makes the kept
predicate downward closed. -/
theorem takeWhile_eq_filter_of_pairwise {α : Type} {R : α → α → Prop}
    {q : α → Bool} :
    ∀ {l : List α}, List.Pairwise R l →
      (∀ a ∈ l, ∀ b ∈ l, R a b → q b = true → q a = true) →
      l.takeWhile q = l.filter q := by
  intro l
  induction l with
  | nil => intro _ _; rfl
  | cons x xs ih =>
    intro hp hcond
    rw [List.pairwise_cons] at hp
    cases hq : q x
    · rw [List.takeWhile_cons, List.filter_cons]
      simp only [hq, Bool.false_eq_true, if_false]
      have hnil : xs.filter q = [] := by
        rw [List.filter_eq_nil_iff]
        intro b hb hqb
        have hx := hcond x (by simp) b (by simp [hb]) (hp.1 b hb) hqb
        rw [hq] at hx
        cases hx
      rw [hnil]
    · rw [List.takeWhile_cons, List.filter_cons]
      simp only [hq, if_true]
      rw [ih hp.2
        (fun a ha b hb hr hqb => hcond a (by simp [ha]) b (by simp [hb]) hr hqb)]

/-- C4. On a sorted namespace, `scan_prefix(p)` — which the code builds as
`iter_from(p, false)` truncated by `take_while` at the first yielded key
that does not start with `p` — yields exactly the pairs of the namespace
whose key has `p` as a byte-prefix; in particular over the keys
{"pre1", "pre2", "zzz"} a scan with prefix "pre" yields exactly the
entries for "pre1" and "pre2" and nothing after them. -/
theorem scan_prefix_spec (db : Db) (pfx : Key) (hs : SortedDb db) :
    EngineTree.scan_prefix db pfx
      = db.filter (fun p => pfx.isPrefixOf p.1)
    ∧ EngineTree.scan_prefix
        [(([112, 114, 101, 49] : Key), ([0] : Value)),
         ([112, 114, 101, 50], [1]), ([122, 122, 122], [2])]
        [112, 114, 101]
      = [(([112, 114, 101, 49] : Key), ([0] : Value)),
         ([112, 114, 101, 50], [1])] := by
  rw [SortedDb] at hs
  constructor
  · unfold EngineTree.scan_prefix
    rw [iter_from_eq_rangeItems]
    by_cases hemp : pfx = []
    · subst hemp
      simp only [rangeItems, heedIterAll, if_false, List.isEmpty_nil, if_true]
      exact takeWhile_eq_filter_of_pairwise hs
        (fun a _ b _ _ _ => List.isPrefixOf_nil_left)
    · have hne : pfx.isEmpty = false := by
        cases pfx
        · exact absurd rfl hemp
        · rfl
      simp only [rangeItems, hne, Bool.false_eq_true, if_false, heedRangeFrom]
      rw [takeWhile_eq_filter_of_pairwise (hs.filter _) ?side]
      case side =>
        intro a ha b _ hr hqb
        have hge : keyLe pfx a.1 = true := (List.mem_filter.mp ha).2
        exact isPrefixOf_of_between pfx a.1 b.1 hge (keyLe_of_keyLt hr) hqb
      rw [List.filter_filter]
      refine List.filter_congr ?_
      intro p _
      cases hq : pfx.isPrefixOf p.1
      · simp
      · simp [keyLe_of_isPrefixOf pfx p.1 hq]
  · decide

/-- Witness for `scan_prefix_spec` at the spec's concrete example. -/
theorem scan_prefix_spec_witness :
    EngineTree.scan_prefix
        [(([112, 114, 101, 49] : Key), ([0] : Value)),
         ([112, 114, 101, 50], [1]), ([122, 122, 122], [2])]
        [112, 114, 101]
      = [(([112, 114, 101, 49] : Key), ([0] : Value)),
         ([112, 114, 101, 50], [1])] :=
  (scan_prefix_spec
    [(([112, 114, 101, 49] : Key), ([0] : Value)),
     ([112, 114, 101, 50], [1]), ([122, 122, 122], [2])]
    [112, 114, 101] (by unfold SortedDb; decide)).2

/-- Exact behaviour of the producer send loop: some initial segment of the
items is delivered, one send call per delivered item, plus at most one
final failing send call after which the loop makes no call at all. -/
theorem sendLoop_spec (sendOk : Nat → Bool) :
    ∀ (l : List TupleOfBytes) (idx : Nat),
      ∃ m, m ≤ l.length
        ∧ (sendLoop sendOk idx l).1 = l.take m
        ∧ (∀ i, i < m → sendOk (idx + i) = true)
        ∧ ((m = l.length ∧ (sendLoop sendOk idx l).2 = m)
           ∨ (m < l.length ∧ sendOk (idx + m) = false
              ∧ (sendLoop sendOk idx l).2 = m + 1)) := by
  intro l
  induction l with
  | nil =>
    intro idx
    exact ⟨0, by simp [sendLoop]⟩
  | cons x rest ih =>
    intro idx
    cases hsend : sendOk idx
    · refine ⟨0, by simp, ?_, ?_, ?_⟩
      · simp [sendLoop, hsend]
      · intro i hi
        omega
      · right
        refine ⟨by simp, ?_, ?_⟩
        · simpa using hsend
        · simp [sendLoop, hsend]
    · obtain ⟨m, hm, hdel, hok, hrest⟩ := ih (idx + 1)
      refine ⟨m + 1, by simpa using Nat.succ_le_succ hm, ?_, ?_, ?_⟩
      · simp [sendLoop, hsend, hdel]
      · intro i hi
        cases i with
        | zero => simpa using hsend
        | succ j =>
          have hj := hok j (by omega)
          rw [show idx + (j + 1) = idx + 1 + j by omega]
          exact hj
      · rcases hrest with ⟨hlen, hcnt⟩ | ⟨hlt, hfail, hcnt⟩
        · left
          refine ⟨by simp [hlen], ?_⟩
          simp [sendLoop, hsend, hcnt]
        · right
          refine ⟨by simp; omega, ?_, ?_⟩
          · rw [show idx + (m + 1) = idx + 1 + m by omega]
            exact hfail
          · simp [sendLoop, hsend, hcnt]

/-- C7. Once a send on the scan's bounded channel fails, the loop of
`iter_from_thread_work` performs no further sends and terminates at once:
for some `m`, the first `m` sends succeed and deliver the first `m` range
items, and either `m` is the whole range (exactly `m` send calls), or the
next send attempt fails and the call makes exactly `m + 1` send calls in
total — the remainder of the range is never sent. -/
theorem iter_from_thread_work_stops_on_send_failure (db : Db) (from_ : Key)
    (backwards : Bool) (sendOk : Nat → Bool) :
    ∃ m, m ≤ (rangeItems db from_ backwards).length
      ∧ (iter_from_thread_work db from_ backwards sendOk).1
          = (rangeItems db from_ backwards).take m
      ∧ (∀ i, i < m → sendOk i = true)
      ∧ ((m = (rangeItems db from_ backwards).length
            ∧ (iter_from_thread_work db from_ backwards sendOk).2 = m)
         ∨ (m < (rangeItems db from_ backwards).length
            ∧ sendOk m = false
            ∧ (iter_from_thread_work db from_ backwards sendOk).2 = m + 1)) := by
  have h := sendLoop_spec sendOk (rangeItems db from_ backwards) 0
  simpa [iter_from_thread_work] using h

theorem scanWithFaults_isPrefixOf_range (db : Db) (from_ : Key)
    (backwards : Bool) (txnFails : Bool) (readFailsAt : Option Nat)
    (sendOk : Nat → Bool) :
    scanWithFaults db from_ backwards txnFails readFailsAt sendOk
      <+: rangeItems db from_ backwards := by
  cases txnFails
  · cases readFailsAt with
    | none =>
      show (sendLoop sendOk 0 (rangeItems db from_ backwards)).1
        <+: rangeItems db from_ backwards
      obtain ⟨m, -, hdel, -, -⟩ :=
        sendLoop_spec sendOk (rangeItems db from_ backwards) 0
      rw [hdel]
      exact ⟨_, List.take_append_drop m _⟩
    | some i =>
      show (sendLoop sendOk 0 ((rangeItems db from_ backwards).take i)).1
        <+: rangeItems db from_ backwards
      obtain ⟨m, -, hdel, -, -⟩ :=
        sendLoop_spec sendOk ((rangeItems db from_ backwards).take i) 0
      rw [hdel, List.take_take]
      exact ⟨_, List.take_append_drop _ _⟩
  · show ([] : List TupleOfBytes) <+: rangeItems db from_ backwards
    exact ⟨_, List.nil_append _⟩

/-- C8. If the background scan fails to open its read transaction
(producer dies before sending anything) or to read a cursor entry
(producer dies after sending the entries before it) — and under any
channel behaviour — the consumer's sequence is a prefix of the fault-free
scan: it simply terminates early, carries no error value (its element type
is bare key/value pairs), and every pair it yields is a genuine whole
entry of the scanned range. -/
theorem scan_faults_clean_early_end (db : Db) (from_ : Key)
    (backwards : Bool) (txnFails : Bool) (readFailsAt : Option Nat)
    (sendOk : Nat → Bool) :
    (scanWithFaults db from_ backwards txnFails readFailsAt sendOk
        <+: EngineTree.iter_from db from_ backwards)
    ∧ ∀ p ∈ scanWithFaults db from_ backwards txnFails readFailsAt sendOk,
        p ∈ rangeItems db from_ backwards := by
  have hpre :=
    scanWithFaults_isPrefixOf_range db from_ backwards txnFails readFailsAt sendOk
  constructor
  · rw [iter_from_eq_rangeItems]
    exact hpre
  · intro p hp
    exact hpre.sublist.subset hp

theorem bytesToNatBE_append (bs : List Nat) (b : Nat) :
    bytesToNatBE (bs ++ [b]) = bytesToNatBE bs * 256 + b := by
  unfold bytesToNatBE
  rw [List.foldl_append]
  rfl

theorem bytesToNatBE_natToBytesBE :
    ∀ (w n : Nat), n < 256 ^ w → bytesToNatBE (natToBytesBE w n) = n
  | 0, n, h => by
    have hn : n = 0 := by
      have : (256 : Nat) ^ 0 = 1 := by norm_num
      omega
    subst hn
    rfl
  | w + 1, n, h => by
    have hdiv : n / 256 < 256 ^ w := by
      rw [Nat.div_lt_iff_lt_mul (by omega : 0 < 256)]
      calc n < 256 ^ (w + 1) := h
        _ = 256 ^ w * 256 := by rw [Nat.pow_succ]
    simp only [natToBytesBE]
    rw [bytesToNatBE_append, bytesToNatBE_natToBytesBE w (n / 256) hdiv]
    omega

theorem incrementN_values (k : Key) :
    ∀ (n : Nat) (db : Db) (c : Nat),
      bytesToNatBE ((dbGet db k).getD []) = c → c + n < 2 ^ 64 →
      (incrementN k db n).2
        = (List.range n).map (fun i => natToBytesBE 8 (c + i + 1)) := by
  intro n
  induction n with
  | zero => intro db c _ _; rfl
  | succ m ih =>
    intro db c hc hbound
    have h256 : (256 : Nat) ^ 8 = 2 ^ 64 := by norm_num
    have hstep : EngineTree.increment noFaults db k
        = .ok (dbPut db k (natToBytesBE 8 (c + 1)), natToBytesBE 8 (c + 1)) := by
      unfold EngineTree.increment utilsIncrement
      rw [hc]
      rfl
    have hc' : bytesToNatBE ((dbGet (dbPut db k (natToBytesBE 8 (c + 1))) k).getD [])
        = c + 1 := by
      rw [dbGet_dbPut_self]
      exact bytesToNatBE_natToBytesBE 8 (c + 1) (by omega)
    simp only [incrementN, hstep]
    rw [ih (dbPut db k (natToBytesBE 8 (c + 1))) (c + 1) hc' (by omega)]
    rw [List.range_succ_eq_map, List.map_cons, List.map_map]
    refine congrArg₂ List.cons rfl ?_
    refine List.map_congr_left ?_
    intro i _
    simp only [Function.comp]
    congr 1
    omega

/-- C2. `increment(k)` on an absent key stores and returns the fixed-width
(8-byte) big-endian encoding of 1, and `n` sequential `increment` calls on
the same key return `n` values — the encodings of 1..n — whose decoded
integers are strictly increasing (for any count below the counter word's
`2 ^ 64` wrap-around). -/
theorem increment_spec (db : Db) (k : Key) (habs : dbGet db k = none) :
    EngineTree.increment noFaults db k
      = .ok (dbPut db k (natToBytesBE 8 1), natToBytesBE 8 1)
    ∧ dbGet (dbPut db k (natToBytesBE 8 1)) k = some (natToBytesBE 8 1)
    ∧ ∀ n, n < 2 ^ 64 →
        (incrementN k db n).2
            = (List.range n).map (fun i => natToBytesBE 8 (i + 1))
        ∧ (incrementN k db n).2.length = n
        ∧ List.Pairwise (fun a b => bytesToNatBE a < bytesToNatBE b)
            (incrementN k db n).2 := by
  have h256 : (256 : Nat) ^ 8 = 2 ^ 64 := by norm_num
  refine ⟨?_, dbGet_dbPut_self db k (natToBytesBE 8 1), ?_⟩
  · unfold EngineTree.increment utilsIncrement
    rw [habs]
    rfl
  · intro n hn
    have hvals := incrementN_values k n db 0 (by rw [habs]; rfl) (by omega)
    have hvals' : (incrementN k db n).2
        = (List.range n).map (fun i => natToBytesBE 8 (i + 1)) := by
      rw [hvals]
      refine List.map_congr_left ?_
      intro i _
      congr 1
      omega
    refine ⟨hvals', by simp [hvals'], ?_⟩
    rw [hvals', List.pairwise_map]
    refine (List.pairwise_lt_range n).imp_of_mem ?_
    intro i j hi hj hij
    rw [List.mem_range] at hi hj
    rw [bytesToNatBE_natToBytesBE 8 (i + 1) (by omega),
      bytesToNatBE_natToBytesBE 8 (j + 1) (by omega)]
    omega

/-- Witness for `increment_spec`: the first increment of a fresh key. -/
theorem increment_spec_witness :
    EngineTree.increment noFaults [] [0]
      = .ok (dbPut ([] : Db) [0] (natToBytesBE 8 1), natToBytesBE 8 1) :=
  (increment_spec [] [0] rfl).1

end Heed
